import Mathlib

set_option maxHeartbeats 1000000

/-!
Verification development for the spotify-json array codec
(src/include/spotify/json/codec/array.hpp).

The single source file defines the three insertion strategies
(SequenceInserter, FixedSizeSequenceInserter, AssociativeInserter) and the
array codec class array_t with its decode and encode members.  Those are
embedded here directly from the source.  The collaborators that live in
other headers of the repository (decoding_context, encoding_context,
detail::advance_past_comma_separated, detail::should_encode, fail_if) are
not under src/, so they are modelled from the spec, as marked on each
definition.

The input stream is modelled as a List Char; failure is modelled with
Except (the C++ code raises exceptions through the decoding context, which
unwind the whole decode call).  Containers are modelled as lists:
ordered-growable containers (std::vector, std::deque, std::list) as plain
lists with push_back at the end; fixed-capacity containers
(std::array of size N) as lists of length N default-initialized with
List.replicate, written in place with List.set; unordered-unique containers
(std::set, std::unordered_set) as duplicate-free lists whose native insert
silently absorbs duplicates.
-/

/-- Error taxonomy of the decode path: framing errors from the array framing
algorithm, arity errors from the fixed-capacity insertion strategy, and
element errors raised by the inner codec. -/
inductive Err where
  | framing : String → Err
  | arity : String → Err
  | elem : String → Err
deriving DecidableEq

/-- Arity message of FixedSizeSequenceInserter::insert in the source. -/
def tooManyMsg : String := "Too many elements in array"

/-- Arity message of FixedSizeSequenceInserter::validate in the source. -/
def tooFewMsg : String := "Too few elements in array"

/-- Framing message for a missing open marker. -/
def expectedOpenMsg : String := "expected open marker"

/-- Framing message for input ending before the collection is closed. -/
def unexpectedEndMsg : String := "unexpected end of input"

/-- Framing message for a separator immediately followed by the close marker. -/
def trailingCommaMsg : String := "trailing comma before close marker"

/-- Framing message for an unexpected character after an element. -/
def expectedSepMsg : String := "expected separator or close marker"

/-- Element error message of the concrete digit inner codec used as witness. -/
def expectedDigitMsg : String := "expected digit"

/-- Modelled from the spec: the Parsing Cursor's notion of insignificant
whitespace (the low-level scanner is an external collaborator). -/
def is_ws (c : Char) : Bool := c = ' ' || c = '\t' || c = '\n' || c = '\r'

/-- Modelled from the spec: skip_insignificant_whitespace of the Parsing
Cursor, as a function from the remaining input to the remaining input. -/
def skip_ws : List Char → List Char
  | [] => []
  | c :: cs => if is_ws c then skip_ws cs else c :: cs

/-- Modelled from the spec: the loop of the Array Framing Algorithm
(detail::advance_past_comma_separated, not under src/).  One iteration
invokes the per-element callback, skips whitespace, and inspects the next
character: the close marker ends the collection, a separator (followed by
whitespace and then something that is not the close marker: trailing commas
are rejected) continues the loop, anything else is a framing error.  The
fuel argument bounds the number of iterations; every call supplies the
length of the remaining input, which is an upper bound on the number of
iterations because each iteration past the first consumes at least the
separator, so the fuel never runs out. -/
def advance_loop {σ : Type} (close : Char)
    (on_element : σ → List Char → Except Err (σ × List Char)) :
    Nat → σ → List Char → Except Err (σ × List Char)
  | 0, _, _ => Except.error (Err.framing unexpectedEndMsg)
  | fuel + 1, s, input =>
    match on_element s input with
    | Except.error e => Except.error e
    | Except.ok (s', rest) =>
      match skip_ws rest with
      | [] => Except.error (Err.framing unexpectedEndMsg)
      | c :: cs =>
        if c = close then Except.ok (s', cs)
        else if c = ',' then
          match skip_ws cs with
          | [] => Except.error (Err.framing unexpectedEndMsg)
          | d :: ds =>
            if d = close then Except.error (Err.framing trailingCommaMsg)
            else advance_loop close on_element fuel s' (d :: ds)
        else Except.error (Err.framing expectedSepMsg)

/-- Modelled from the spec: detail::advance_past_comma_separated (not under
src/).  Expect the open marker, skip whitespace; if the next significant
character is the close marker consume it and return immediately (empty
collection, callback invoked zero times), otherwise run the element loop. -/
def advance_past_comma_separated {σ : Type} (openM closeM : Char)
    (on_element : σ → List Char → Except Err (σ × List Char))
    (s : σ) (input : List Char) : Except Err (σ × List Char) :=
  match input with
  | [] => Except.error (Err.framing expectedOpenMsg)
  | c :: cs =>
    if c = openM then
      match skip_ws cs with
      | [] => Except.error (Err.framing unexpectedEndMsg)
      | d :: ds =>
        if d = closeM then Except.ok (s, ds)
        else advance_loop closeM on_element (d :: ds).length s (d :: ds)
    else Except.error (Err.framing expectedOpenMsg)

/-- Inner Codec collaborator: decode of one element from the remaining
input, encode of one element to characters, and the elision predicate
consulted by the array encode path (detail::should_encode). -/
structure Codec (α : Type) where
  dec : List Char → Except Err (α × List Char)
  enc : α → List Char
  should_encode : α → Bool

/-- Decidable equality for Except results, used to evaluate concrete
decodes in witnesses. -/
instance {ε α : Type} [DecidableEq ε] [DecidableEq α] :
    DecidableEq (Except ε α) := fun a b =>
  match a, b with
  | Except.error e, Except.error e' =>
    if h : e = e' then isTrue (by rw [h])
    else isFalse (fun hh => h (by injection hh))
  | Except.error e, Except.ok v => isFalse (fun hh => by injection hh)
  | Except.ok v, Except.error e => isFalse (fun hh => by injection hh)
  | Except.ok v, Except.ok v' =>
    if h : v = v' then isTrue (by rw [h])
    else isFalse (fun hh => h (by injection hh))

/-- SequenceInserter::init_state from the source (state is int, value 0). -/
def SequenceInserter.init_state : Int := 0

/-- SequenceInserter::insert from the source: push_back the value and
return init_state.  It cannot fail. -/
def SequenceInserter.insert {α : Type} (_s : Int) (container : List α)
    (value : α) : Except Err (Int × List α) :=
  Except.ok (SequenceInserter.init_state, container ++ [value])

/-- SequenceInserter::validate from the source: nothing to validate. -/
def SequenceInserter.validate {α : Type} (_s : Int) (_container : List α) :
    Except Err Unit :=
  Except.ok ()

/-- FixedSizeSequenceInserter::init_state from the source (state is size_t,
value 0). -/
def FixedSizeSequenceInserter.init_state : Nat := 0

/-- FixedSizeSequenceInserter::insert from the source: fail_if the position
has reached the container size ("Too many elements in array"), otherwise
write the value at the position and return pos + 1. -/
def FixedSizeSequenceInserter.insert {α : Type} (pos : Nat)
    (container : List α) (value : α) : Except Err (Nat × List α) :=
  if pos ≥ container.length then Except.error (Err.arity tooManyMsg)
  else Except.ok (pos + 1, container.set pos value)

/-- FixedSizeSequenceInserter::validate from the source: fail_if the final
position differs from the container size ("Too few elements in array"). -/
def FixedSizeSequenceInserter.validate {α : Type} (pos : Nat)
    (container : List α) : Except Err Unit :=
  if pos ≠ container.length then Except.error (Err.arity tooFewMsg)
  else Except.ok ()

/-- Native insert of the unordered-unique container model: a duplicate is
silently absorbed, a new element is appended. -/
def assoc_insert {α : Type} [DecidableEq α] (container : List α) (value : α) :
    List α :=
  if value ∈ container then container else container ++ [value]

/-- AssociativeInserter::init_state from the source (state is int, value 0). -/
def AssociativeInserter.init_state : Int := 0

/-- AssociativeInserter::insert from the source: the container's native
insert (duplicates silently absorbed) and return init_state.  It cannot
fail. -/
def AssociativeInserter.insert {α : Type} [DecidableEq α] (_s : Int)
    (container : List α) (value : α) : Except Err (Int × List α) :=
  Except.ok (AssociativeInserter.init_state, assoc_insert container value)

/-- AssociativeInserter::validate from the source: nothing to validate. -/
def AssociativeInserter.validate {α : Type} (_s : Int) (_container : List α) :
    Except Err Unit :=
  Except.ok ()

/-- The per-element callback of array_t::decode from the source: decode one
element with the inner codec, then merge it with the insertion strategy,
threading the strategy state and the container. -/
def array_on_element {α σ C : Type} (inner : Codec α)
    (ins : σ → C → α → Except Err (σ × C)) :
    σ × C → List Char → Except Err ((σ × C) × List Char) :=
  fun sc l =>
    match inner.dec l with
    | Except.error e => Except.error e
    | Except.ok (v, rest) =>
      match ins sc.1 sc.2 v with
      | Except.error e => Except.error e
      | Except.ok sc' => Except.ok (sc', rest)

/-- array_t::decode from the source: construct the empty container, run the
framing algorithm with the per-element callback starting from init_state,
validate the final strategy state, and return the container (or propagate
whatever failure occurred). -/
def array_decode {α σ C : Type} (inner : Codec α) (init : σ) (empty : C)
    (ins : σ → C → α → Except Err (σ × C)) (val : σ → C → Except Err Unit)
    (input : List Char) : Except Err (C × List Char) :=
  match advance_past_comma_separated '[' ']' (array_on_element inner ins)
      (init, empty) input with
  | Except.error e => Except.error e
  | Except.ok (sc, rest) =>
    match val sc.1 sc.2 with
    | Except.error e => Except.error e
    | Except.ok _ => Except.ok (sc.2, rest)

/-- The array codec instantiated for ordered-growable containers
(std::vector, std::deque, std::list), as by detail::Inserter. -/
def decode_vector {α : Type} (inner : Codec α) :
    List Char → Except Err (List α × List Char) :=
  array_decode inner SequenceInserter.init_state []
    SequenceInserter.insert SequenceInserter.validate

/-- The array codec instantiated for the fixed-capacity container
(std::array of size n), as by detail::Inserter.  The container starts as n
default-initialized slots. -/
def decode_array {α : Type} [Inhabited α] (n : Nat) (inner : Codec α) :
    List Char → Except Err (List α × List Char) :=
  array_decode inner FixedSizeSequenceInserter.init_state
    (List.replicate n default)
    FixedSizeSequenceInserter.insert FixedSizeSequenceInserter.validate

/-- The array codec instantiated for unordered-unique containers
(std::set, std::unordered_set), as by detail::Inserter. -/
def decode_set {α : Type} [DecidableEq α] (inner : Codec α) :
    List Char → Except Err (List α × List Char) :=
  array_decode inner AssociativeInserter.init_state []
    AssociativeInserter.insert AssociativeInserter.validate

/-- Modelled from the spec: the Output Sink's append_or_replace (member of
encoding_context, not under src/): if the last appended character equals
the expected one, replace it with the replacement, otherwise append the
replacement. -/
def append_or_replace (buf : List Char) (expected replacement : Char) :
    List Char :=
  if buf.getLast? = some expected then buf.dropLast ++ [replacement]
  else buf ++ [replacement]

/-- array_t::encode from the source: append the open bracket; for each
element of the container, if detail::should_encode accepts it, encode it
with the inner codec and append a separator; finally append_or_replace the
dangling separator with the close bracket. -/
def array_encode {α : Type} (inner : Codec α) (array : List α) : List Char :=
  append_or_replace
    (array.foldl
      (fun buf element =>
        if inner.should_encode element then buf ++ inner.enc element ++ [',']
        else buf)
      ['['])
    ',' ']'

/-- Concrete inner codec used for witnesses: a single decimal digit,
decoded to Fin 10, never elided. -/
def digitCodec : Codec (Fin 10) where
  dec l :=
    match l with
    | [] => Except.error (Err.elem expectedDigitMsg)
    | c :: cs =>
      if h : 48 ≤ c.toNat ∧ c.toNat ≤ 57 then
        Except.ok (⟨c.toNat - 48, by omega⟩, cs)
      else Except.error (Err.elem expectedDigitMsg)
  enc a := [Char.ofNat (48 + a.val)]
  should_encode _ := true

/-- Concrete inner codec for the elision witnesses: the digit codec whose
elision predicate skips the digit 2. -/
def elideCodec : Codec (Fin 10) :=
  { digitCodec with should_encode := fun a => a != 2 }

/-- Instrumented per-element callback: identical to array_on_element but it
additionally records, for each invocation of the inner codec, the length of
the remaining input at that invocation.  This makes the number and the
left-to-right order of the inner codec's decode invocations observable. -/
def traced_on_element {α σ C : Type} (inner : Codec α)
    (ins : σ → C → α → Except Err (σ × C)) :
    (σ × C) × List Nat → List Char →
      Except Err (((σ × C) × List Nat) × List Char) :=
  fun sct l =>
    match array_on_element inner ins sct.1 l with
    | Except.error e => Except.error e
    | Except.ok (sc', rest) => Except.ok ((sc', sct.2 ++ [l.length]), rest)

/-- Instrumented array_t::decode: the same computation as array_decode, but
returning alongside the container the trace of inner-codec invocation
positions (remaining-input lengths, so later invocations have strictly
smaller entries). -/
def array_decode_tr {α σ C : Type} (inner : Codec α) (init : σ) (empty : C)
    (ins : σ → C → α → Except Err (σ × C)) (val : σ → C → Except Err Unit)
    (input : List Char) : Except Err ((C × List Nat) × List Char) :=
  match advance_past_comma_separated '[' ']' (traced_on_element inner ins)
      ((init, empty), []) input with
  | Except.error e => Except.error e
  | Except.ok (sct, rest) =>
    match val sct.1.1 sct.1.2 with
    | Except.error e => Except.error e
    | Except.ok _ => Except.ok ((sct.1.2, sct.2), rest)

/-- Instrumented decode for ordered-growable containers. -/
def decode_vector_tr {α : Type} (inner : Codec α) :
    List Char → Except Err ((List α × List Nat) × List Char) :=
  array_decode_tr inner SequenceInserter.init_state []
    SequenceInserter.insert SequenceInserter.validate

/-- Instrumented decode for the fixed-capacity container of size n. -/
def decode_array_tr {α : Type} [Inhabited α] (n : Nat) (inner : Codec α) :
    List Char → Except Err ((List α × List Nat) × List Char) :=
  array_decode_tr inner FixedSizeSequenceInserter.init_state
    (List.replicate n default)
    FixedSizeSequenceInserter.insert FixedSizeSequenceInserter.validate

/-- Instrumented decode for unordered-unique containers. -/
def decode_set_tr {α : Type} [DecidableEq α] (inner : Codec α) :
    List Char → Except Err ((List α × List Nat) × List Char) :=
  array_decode_tr inner AssociativeInserter.init_state []
    AssociativeInserter.insert AssociativeInserter.validate

/-- Canonical wire form of a nonempty element list, from the first element
to the close bracket: e1 , e2 , ... , en ] (and just the close bracket for
the empty list).  The encode path produces the open bracket followed by
exactly this (midE stands for the middle-plus-end of the output). -/
def midE {α : Type} (enc : α → List Char) : List α → List Char
  | [] => [']']
  | [a] => enc a ++ [']']
  | a :: l => enc a ++ ',' :: midE enc l

/-- The element list as written by the encode loop before the final
append_or_replace: every encoded element followed by a separator. -/
def bodyE {α : Type} (enc : α → List Char) : List α → List Char
  | [] => []
  | a :: l => enc a ++ ',' :: bodyE enc l

/-- The expected invocation trace for the canonical wire form of a list:
one entry per element, the entry being the length of the remaining input
at the inner codec invocation for that element. -/
def trace_of {α : Type} (enc : α → List Char) : List α → List Nat
  | [] => []
  | a :: l => (midE enc (a :: l)).length :: trace_of enc l

/-- Successive in-place writes of the fixed-capacity strategy: write the
elements of the list at consecutive positions starting at pos. -/
def set_from {α : Type} : List α → Nat → List α → List α
  | c, _, [] => c
  | c, pos, a :: l => set_from (c.set pos a) (pos + 1) l

/-- Hypothesis on the Inner Codec for the round-trip claims: decoding an
encoded element followed by a separator or a close bracket consumes exactly
the encoding and returns exactly the element. -/
def RoundTrips {α : Type} (inner : Codec α) : Prop :=
  ∀ (a : α) (rest : List Char),
    rest.head? = some ',' ∨ rest.head? = some ']' →
      inner.dec (inner.enc a ++ rest) = Except.ok (a, rest)

/-- Hypothesis on the Inner Codec: every element encoding is nonempty and
starts with a character that is neither insignificant whitespace nor the
close bracket (true of every JSON value encoding). -/
def GoodHead {α : Type} (inner : Codec α) : Prop :=
  ∀ a : α, ∃ c cs, inner.enc a = c :: cs ∧ is_ws c = false ∧ c ≠ ']'

/-- Hypothesis on the Inner Codec for the no-stray-separator claim: every
element encoding is nonempty and does not end in a separator. -/
def GoodLast {α : Type} (inner : Codec α) : Prop :=
  ∀ a : α, inner.enc a ≠ [] ∧ (inner.enc a).getLast? ≠ some ','

lemma skip_ws_cons_of_not_ws {c : Char} (cs : List Char) (h : is_ws c = false) :
    skip_ws (c :: cs) = c :: cs := by
  simp [skip_ws, h]

lemma midE_single {α : Type} (enc : α → List Char) (a : α) :
    midE enc [a] = enc a ++ [']'] := rfl

lemma midE_cons_cons {α : Type} (enc : α → List Char) (a b : α) (l : List α) :
    midE enc (a :: b :: l) = enc a ++ ',' :: midE enc (b :: l) := rfl

lemma midE_head {α : Type} {inner : Codec α} (hh : GoodHead inner)
    (a : α) (l : List α) :
    ∃ d ds, midE inner.enc (a :: l) = d :: ds ∧ is_ws d = false ∧ d ≠ ']' := by
  obtain ⟨c, cs, henc, hws, hcl⟩ := hh a
  cases l with
  | nil => exact ⟨c, cs ++ [']'], by simp [midE_single, henc], hws, hcl⟩
  | cons b l' =>
    exact ⟨c, cs ++ ',' :: midE inner.enc (b :: l'),
      by simp [midE_cons_cons, henc], hws, hcl⟩

lemma encode_foldl {α : Type} (inner : Codec α) :
    ∀ (l : List α) (buf : List Char),
      l.foldl
        (fun b e =>
          if inner.should_encode e then b ++ inner.enc e ++ [','] else b)
        buf
        = buf ++ bodyE inner.enc (l.filter inner.should_encode) := by
  intro l
  induction l with
  | nil => intro buf; simp [bodyE]
  | cons a l ih =>
    intro buf
    by_cases h : inner.should_encode a
    · simp only [List.foldl_cons, h, if_true, ih, List.filter_cons, bodyE]
      simp
    · simp only [List.foldl_cons, h, if_false, ih, List.filter_cons]
      simp [h]

lemma bodyE_eq_midE {α : Type} (enc : α → List Char) :
    ∀ l : List α, l ≠ [] →
      ∃ b, bodyE enc l = b ++ [','] ∧ midE enc l = b ++ [']'] := by
  intro l
  induction l with
  | nil => simp
  | cons a l ih =>
    intro _
    cases l with
    | nil => exact ⟨enc a, by simp [bodyE], by simp [midE_single]⟩
    | cons b l' =>
      obtain ⟨x, hb, hm⟩ := ih (by simp)
      refine ⟨enc a ++ ',' :: x, ?_, ?_⟩
      · rw [show bodyE enc (a :: b :: l') = enc a ++ ',' :: bodyE enc (b :: l')
          from rfl, hb]
        simp
      · rw [midE_cons_cons, hm]
        simp

lemma append_or_replace_comma (x : List Char) :
    append_or_replace (x ++ [',']) ',' ']' = x ++ [']'] := by
  simp [append_or_replace]

lemma array_encode_eq {α : Type} (inner : Codec α) (l : List α) :
    array_encode inner l
      = '[' :: midE inner.enc (l.filter inner.should_encode) := by
  unfold array_encode
  rw [encode_foldl]
  cases hfl : l.filter inner.should_encode with
  | nil => simp [bodyE, midE, append_or_replace]
  | cons a fl' =>
    obtain ⟨b, hb, hm⟩ := bodyE_eq_midE inner.enc (a :: fl') (by simp)
    rw [hb, hm]
    have h := append_or_replace_comma ('[' :: b)
    simpa using h

lemma advance_past_entry {σ : Type}
    (oe : σ → List Char → Except Err (σ × List Char)) (s : σ)
    (d : Char) (ds : List Char) (hws : is_ws d = false) (hcl : d ≠ ']') :
    advance_past_comma_separated '[' ']' oe s ('[' :: d :: ds)
      = advance_loop ']' oe (d :: ds).length s (d :: ds) := by
  simp [advance_past_comma_separated, skip_ws_cons_of_not_ws _ hws, hcl]

lemma advance_past_empty_collection {σ : Type}
    (oe : σ → List Char → Except Err (σ × List Char)) (s : σ) :
    advance_past_comma_separated '[' ']' oe s ('[' :: [']'])
      = Except.ok (s, []) := rfl

lemma advance_loop_erase {α σ C : Type} (inner : Codec α)
    (ins : σ → C → α → Except Err (σ × C)) (close : Char) :
    ∀ (fuel : Nat) (sc : σ × C) (tr : List Nat) (input : List Char),
      advance_loop close (array_on_element inner ins) fuel sc input
        = Except.map (fun p => (p.1.1, p.2))
            (advance_loop close (traced_on_element inner ins) fuel
              (sc, tr) input) := by
  intro fuel
  induction fuel with
  | zero => intro sc tr input; rfl
  | succ fuel ih =>
    intro sc tr input
    simp only [advance_loop, traced_on_element]
    cases h : array_on_element inner ins sc input with
    | error e => simp [Except.map]
    | ok p =>
      obtain ⟨sc', rest⟩ := p
      simp only []
      cases hsw : skip_ws rest with
      | nil => simp [Except.map]
      | cons c cs =>
        by_cases hc : c = close
        · simp [hc, Except.map]
        · simp only [hc, if_false]
          by_cases hcm : c = ','
          · subst hcm
            simp only [if_true]
            cases hsw2 : skip_ws cs with
            | nil => simp [Except.map]
            | cons d ds =>
              by_cases hd : d = close
              · simp [hd, Except.map]
              · simp only [hd, if_false]
                exact ih sc' (tr ++ [input.length]) (d :: ds)
          · simp [hcm, Except.map]

lemma array_decode_erase {α σ C : Type} (inner : Codec α) (init : σ)
    (empty : C) (ins : σ → C → α → Except Err (σ × C))
    (val : σ → C → Except Err Unit) (input : List Char) :
    array_decode inner init empty ins val input
      = Except.map (fun p => (p.1.1, p.2))
          (array_decode_tr inner init empty ins val input) := by
  unfold array_decode array_decode_tr
  cases input with
  | nil => rfl
  | cons c cs =>
    simp only [advance_past_comma_separated]
    by_cases hc : c = '['
    · simp only [hc, if_true]
      cases hsw : skip_ws cs with
      | nil => rfl
      | cons d ds =>
        by_cases hd : d = ']'
        · simp only [hd, if_true]
          cases hval : val init empty with
          | error e => simp [hval, Except.map]
          | ok u => simp [hval, Except.map]
        · simp only [hd, if_false]
          rw [advance_loop_erase inner ins ']' (d :: ds).length
            (init, empty) [] (d :: ds)]
          cases hloop : advance_loop ']' (traced_on_element inner ins)
              (d :: ds).length ((init, empty), []) (d :: ds) with
          | error e => simp [Except.map]
          | ok p =>
            obtain ⟨⟨⟨st, out⟩, tr⟩, rest⟩ := p
            cases hval : val st out with
            | error e => simp [Except.map, hval]
            | ok u => simp [Except.map, hval]
    · simp [hc, Except.map]

lemma skip_ws_close (xs : List Char) : skip_ws (']' :: xs) = ']' :: xs := rfl

lemma skip_ws_comma (xs : List Char) : skip_ws (',' :: xs) = ',' :: xs := rfl

lemma advance_loop_midE_total {α σ C : Type} {inner : Codec α}
    {ins : σ → C → α → Except Err (σ × C)} (f : σ → C → α → σ × C)
    (hins : ∀ s c a, ins s c a = Except.ok (f s c a))
    (h1 : RoundTrips inner) (hh : GoodHead inner) :
    ∀ (l : List α) (a : α) (fuel : Nat) (sc : σ × C) (tr : List Nat),
      (midE inner.enc (a :: l)).length ≤ fuel →
      advance_loop ']' (traced_on_element inner ins) fuel (sc, tr)
          (midE inner.enc (a :: l))
        = Except.ok
            (((a :: l).foldl (fun p x => f p.1 p.2 x) sc,
              tr ++ trace_of inner.enc (a :: l)), []) := by
  intro l
  induction l with
  | nil =>
    intro a fuel sc tr hfuel
    obtain ⟨c, cs, henc, hws, hcl⟩ := hh a
    cases fuel with
    | zero =>
      exfalso
      rw [midE_single, henc] at hfuel
      simp at hfuel
    | succ fuel =>
      have hoe : traced_on_element inner ins (sc, tr) (inner.enc a ++ [']'])
          = Except.ok ((f sc.1 sc.2 a,
              tr ++ [(inner.enc a ++ [']']).length]), [']']) := by
        simp only [traced_on_element, array_on_element,
          h1 a [']'] (Or.inr rfl), hins]
      rw [midE_single]
      simp only [advance_loop, hoe, skip_ws_close]
      simp [trace_of, midE_single]
  | cons b l ih =>
    intro a fuel sc tr hfuel
    obtain ⟨c, cs, henc, hws, hcl⟩ := hh a
    cases fuel with
    | zero =>
      exfalso
      rw [midE_cons_cons, henc] at hfuel
      simp at hfuel
    | succ fuel =>
      have hoe : traced_on_element inner ins (sc, tr)
            (inner.enc a ++ ',' :: midE inner.enc (b :: l))
          = Except.ok ((f sc.1 sc.2 a,
              tr ++ [(inner.enc a ++ ',' :: midE inner.enc (b :: l)).length]),
              ',' :: midE inner.enc (b :: l)) := by
        simp only [traced_on_element, array_on_element,
          h1 a (',' :: midE inner.enc (b :: l)) (Or.inl rfl), hins]
      obtain ⟨d, ds, hmid, hdws, hdcl⟩ := midE_head hh b l
      have hfuel' : (midE inner.enc (b :: l)).length ≤ fuel := by
        rw [midE_cons_cons, henc] at hfuel
        simp at hfuel
        omega
      have hrec := ih b fuel (f sc.1 sc.2 a)
        (tr ++ [(inner.enc a ++ ',' :: midE inner.enc (b :: l)).length]) hfuel'
      rw [midE_cons_cons]
      simp only [advance_loop, hoe, skip_ws_comma]
      rw [hmid, skip_ws_cons_of_not_ws _ hdws]
      simp only [hdcl, if_false, ← hmid, hrec]
      simp [trace_of, midE_cons_cons]

lemma advance_loop_midE_fixed {α : Type} {inner : Codec α}
    (h1 : RoundTrips inner) (hh : GoodHead inner) :
    ∀ (l : List α) (a : α) (fuel : Nat) (pos : Nat) (c : List α)
      (tr : List Nat),
      (midE inner.enc (a :: l)).length ≤ fuel →
      advance_loop ']'
          (traced_on_element inner FixedSizeSequenceInserter.insert) fuel
          ((pos, c), tr) (midE inner.enc (a :: l))
        = if c.length < pos + (a :: l).length
          then Except.error (Err.arity tooManyMsg)
          else Except.ok
              (((pos + (a :: l).length, set_from c pos (a :: l)),
                tr ++ trace_of inner.enc (a :: l)), []) := by
  intro l
  induction l with
  | nil =>
    intro a fuel pos c tr hfuel
    obtain ⟨ch, cs, henc, hws, hcl⟩ := hh a
    cases fuel with
    | zero =>
      exfalso
      rw [midE_single, henc] at hfuel
      simp at hfuel
    | succ fuel =>
      by_cases hpc : pos ≥ c.length
      · have hoe : traced_on_element inner FixedSizeSequenceInserter.insert
              ((pos, c), tr) (inner.enc a ++ [']'])
            = Except.error (Err.arity tooManyMsg) := by
          simp only [traced_on_element, array_on_element,
            h1 a [']'] (Or.inr rfl), FixedSizeSequenceInserter.insert,
            hpc, if_true]
        rw [midE_single]
        simp only [advance_loop, hoe]
        rw [if_pos (by simp; omega)]
      · have hoe : traced_on_element inner FixedSizeSequenceInserter.insert
              ((pos, c), tr) (inner.enc a ++ [']'])
            = Except.ok (((pos + 1, c.set pos a),
                tr ++ [(inner.enc a ++ [']']).length]), [']']) := by
          simp only [traced_on_element, array_on_element,
            h1 a [']'] (Or.inr rfl), FixedSizeSequenceInserter.insert,
            hpc, if_false]
        rw [midE_single]
        simp only [advance_loop, hoe, skip_ws_close]
        rw [if_neg (show ¬c.length < pos + (a :: ([] : List α)).length by
          simp; omega)]
        simp [set_from, trace_of, midE_single]
  | cons b l ih =>
    intro a fuel pos c tr hfuel
    obtain ⟨ch, cs, henc, hws, hcl⟩ := hh a
    cases fuel with
    | zero =>
      exfalso
      rw [midE_cons_cons, henc] at hfuel
      simp at hfuel
    | succ fuel =>
      by_cases hpc : pos ≥ c.length
      · have hoe : traced_on_element inner FixedSizeSequenceInserter.insert
              ((pos, c), tr) (inner.enc a ++ ',' :: midE inner.enc (b :: l))
            = Except.error (Err.arity tooManyMsg) := by
          simp only [traced_on_element, array_on_element,
            h1 a (',' :: midE inner.enc (b :: l)) (Or.inl rfl),
            FixedSizeSequenceInserter.insert, hpc, if_true]
        rw [midE_cons_cons]
        simp only [advance_loop, hoe]
        rw [if_pos (by simp; omega)]
      · have hoe : traced_on_element inner FixedSizeSequenceInserter.insert
              ((pos, c), tr) (inner.enc a ++ ',' :: midE inner.enc (b :: l))
            = Except.ok (((pos + 1, c.set pos a),
                tr ++ [(inner.enc a ++ ',' :: midE inner.enc (b :: l)).length]),
                ',' :: midE inner.enc (b :: l)) := by
          simp only [traced_on_element, array_on_element,
            h1 a (',' :: midE inner.enc (b :: l)) (Or.inl rfl),
            FixedSizeSequenceInserter.insert, hpc, if_false]
        obtain ⟨d, ds, hmid, hdws, hdcl⟩ := midE_head hh b l
        have hfuel' : (midE inner.enc (b :: l)).length ≤ fuel := by
          rw [midE_cons_cons, henc] at hfuel
          simp at hfuel
          omega
        have hrec := ih b fuel (pos + 1) (c.set pos a)
          (tr ++ [(inner.enc a ++ ',' :: midE inner.enc (b :: l)).length])
          hfuel'
        rw [midE_cons_cons]
        simp only [advance_loop, hoe, skip_ws_comma]
        rw [hmid, skip_ws_cons_of_not_ws _ hdws]
        simp only [hdcl, if_false, ← hmid, hrec]
        rw [List.length_set]
        have harith : pos + 1 + (b :: l).length = pos + (a :: b :: l).length := by
          simp [List.length_cons]
          omega
        rw [harith]
        by_cases hcond : c.length < pos + (a :: b :: l).length
        · rw [if_pos hcond, if_pos hcond]
          simp
        · rw [if_neg hcond, if_neg hcond]
          simp [set_from, trace_of, midE_cons_cons]

lemma bodyE_cons {α : Type} (enc : α → List Char) (a : α) (l : List α) :
    bodyE enc (a :: l) = enc a ++ ',' :: bodyE enc l := rfl

lemma advance_loop_bodyE_close_total {α σ C : Type} {inner : Codec α}
    {ins : σ → C → α → Except Err (σ × C)} (f : σ → C → α → σ × C)
    (hins : ∀ s c a, ins s c a = Except.ok (f s c a))
    (h1 : RoundTrips inner) (hh : GoodHead inner) :
    ∀ (l : List α) (a : α) (fuel : Nat) (sc : σ × C),
      (bodyE inner.enc (a :: l) ++ [']']).length ≤ fuel →
      advance_loop ']' (array_on_element inner ins) fuel sc
          (bodyE inner.enc (a :: l) ++ [']'])
        = Except.error (Err.framing trailingCommaMsg) := by
  intro l
  induction l with
  | nil =>
    intro a fuel sc hfuel
    obtain ⟨c, cs, henc, hws, hcl⟩ := hh a
    cases fuel with
    | zero =>
      exfalso
      rw [bodyE_cons, henc] at hfuel
      simp at hfuel
    | succ fuel =>
      have hshape : bodyE inner.enc [a] ++ [']']
          = inner.enc a ++ ',' :: [']'] := by
        simp [bodyE_cons, bodyE]
      have hoe : array_on_element inner ins sc (inner.enc a ++ ',' :: [']'])
          = Except.ok ((f sc.1 sc.2 a), ',' :: [']']) := by
        simp only [array_on_element, h1 a (',' :: [']']) (Or.inl rfl), hins]
      rw [hshape]
      simp only [advance_loop, hoe, skip_ws_comma]
      simp [skip_ws, is_ws]
  | cons b l ih =>
    intro a fuel sc hfuel
    obtain ⟨c, cs, henc, hws, hcl⟩ := hh a
    obtain ⟨cb, csb, hencb, hwsb, hclb⟩ := hh b
    cases fuel with
    | zero =>
      exfalso
      rw [bodyE_cons, henc] at hfuel
      simp at hfuel
    | succ fuel =>
      have hshape : bodyE inner.enc (a :: b :: l) ++ [']']
          = inner.enc a ++ ',' :: (bodyE inner.enc (b :: l) ++ [']']) := by
        simp [bodyE_cons]
      have hoe : array_on_element inner ins sc
            (inner.enc a ++ ',' :: (bodyE inner.enc (b :: l) ++ [']']))
          = Except.ok ((f sc.1 sc.2 a),
              ',' :: (bodyE inner.enc (b :: l) ++ [']'])) := by
        simp only [array_on_element,
          h1 a (',' :: (bodyE inner.enc (b :: l) ++ [']'])) (Or.inl rfl), hins]
      have hshapeb : bodyE inner.enc (b :: l) ++ [']']
          = cb :: (csb ++ ',' :: bodyE inner.enc l ++ [']']) := by
        simp [bodyE_cons, hencb]
      have hfuel' : (bodyE inner.enc (b :: l) ++ [']']).length ≤ fuel := by
        rw [bodyE_cons, henc] at hfuel
        simp at hfuel ⊢
        omega
      rw [hshape]
      simp only [advance_loop, hoe, skip_ws_comma]
      rw [hshapeb, skip_ws_cons_of_not_ws _ hwsb]
      simp only [hclb, if_false, ← hshapeb]
      rw [ih b fuel (f sc.1 sc.2 a) hfuel']
      simp

lemma advance_loop_bodyE_fixed_overflow {α : Type} {inner : Codec α}
    (h1 : RoundTrips inner) (hh : GoodHead inner) :
    ∀ (l : List α) (a : α) (fuel pos : Nat) (c : List α) (g : List Char),
      c.length < pos + (a :: l).length →
      (bodyE inner.enc (a :: l) ++ g).length ≤ fuel →
      advance_loop ']'
          (array_on_element inner FixedSizeSequenceInserter.insert)
          fuel (pos, c) (bodyE inner.enc (a :: l) ++ g)
        = Except.error (Err.arity tooManyMsg) := by
  intro l
  induction l with
  | nil =>
    intro a fuel pos c g hlt hfuel
    obtain ⟨ch, cs, henc, hws, hcl⟩ := hh a
    cases fuel with
    | zero =>
      exfalso
      rw [bodyE_cons, henc] at hfuel
      simp at hfuel
    | succ fuel =>
      have hpc : pos ≥ c.length := by simp at hlt; omega
      have hshape : bodyE inner.enc [a] ++ g
          = inner.enc a ++ ',' :: g := by
        simp [bodyE_cons, bodyE]
      have hoe : array_on_element inner FixedSizeSequenceInserter.insert
            (pos, c) (inner.enc a ++ ',' :: g)
          = Except.error (Err.arity tooManyMsg) := by
        simp only [array_on_element, h1 a (',' :: g) (Or.inl rfl),
          FixedSizeSequenceInserter.insert, hpc, if_true]
      rw [hshape]
      simp only [advance_loop, hoe]
  | cons b l ih =>
    intro a fuel pos c g hlt hfuel
    obtain ⟨ch, cs, henc, hws, hcl⟩ := hh a
    obtain ⟨cb, csb, hencb, hwsb, hclb⟩ := hh b
    cases fuel with
    | zero =>
      exfalso
      rw [bodyE_cons, henc] at hfuel
      simp at hfuel
    | succ fuel =>
      have hshape : bodyE inner.enc (a :: b :: l) ++ g
          = inner.enc a ++ ',' :: (bodyE inner.enc (b :: l) ++ g) := by
        simp [bodyE_cons]
      by_cases hpc : pos ≥ c.length
      · have hoe : array_on_element inner FixedSizeSequenceInserter.insert
              (pos, c) (inner.enc a ++ ',' :: (bodyE inner.enc (b :: l) ++ g))
            = Except.error (Err.arity tooManyMsg) := by
          simp only [array_on_element,
            h1 a (',' :: (bodyE inner.enc (b :: l) ++ g)) (Or.inl rfl),
            FixedSizeSequenceInserter.insert, hpc, if_true]
        rw [hshape]
        simp only [advance_loop, hoe]
      · have hoe : array_on_element inner FixedSizeSequenceInserter.insert
              (pos, c) (inner.enc a ++ ',' :: (bodyE inner.enc (b :: l) ++ g))
            = Except.ok ((pos + 1, c.set pos a),
                ',' :: (bodyE inner.enc (b :: l) ++ g)) := by
          simp only [array_on_element,
            h1 a (',' :: (bodyE inner.enc (b :: l) ++ g)) (Or.inl rfl),
            FixedSizeSequenceInserter.insert, hpc, if_false]
        have hshapeb : bodyE inner.enc (b :: l) ++ g
            = cb :: (csb ++ ',' :: bodyE inner.enc l ++ g) := by
          simp [bodyE_cons, hencb]
        have hfuel' : (bodyE inner.enc (b :: l) ++ g).length ≤ fuel := by
          rw [bodyE_cons, henc] at hfuel
          simp at hfuel ⊢
          omega
        have hlt' : (c.set pos a).length < pos + 1 + (b :: l).length := by
          rw [List.length_set]
          simp at hlt ⊢
          omega
        rw [hshape]
        simp only [advance_loop, hoe, skip_ws_comma]
        rw [hshapeb, skip_ws_cons_of_not_ws _ hwsb]
        simp only [hclb, if_false, ← hshapeb]
        rw [ih b fuel (pos + 1) (c.set pos a) g hlt' hfuel']
        simp

lemma advance_loop_error_origin {σ : Type} (close : Char)
    (oe : σ → List Char → Except Err (σ × List Char)) :
    ∀ (fuel : Nat) (s : σ) (input : List Char) (e : Err),
      advance_loop close oe fuel s input = Except.error e →
      (∃ m, e = Err.framing m) ∨ ∃ s' l', oe s' l' = Except.error e := by
  intro fuel
  induction fuel with
  | zero =>
    intro s input e h
    simp only [advance_loop] at h
    simp at h
    exact Or.inl ⟨unexpectedEndMsg, h.symm⟩
  | succ fuel ih =>
    intro s input e h
    simp only [advance_loop] at h
    split at h
    · rename_i e' heq
      injection h with h'
      subst h'
      exact Or.inr ⟨s, input, heq⟩
    · rename_i p s' rest heq
      split at h
      · injection h with h'
        exact Or.inl ⟨unexpectedEndMsg, h'.symm⟩
      · rename_i c cs hsw
        split at h
        · cases h
        · split at h
          · split at h
            · injection h with h'
              exact Or.inl ⟨unexpectedEndMsg, h'.symm⟩
            · rename_i d ds hsw2
              split at h
              · injection h with h'
                exact Or.inl ⟨trailingCommaMsg, h'.symm⟩
              · exact ih s' (d :: ds) e h
          · injection h with h'
            exact Or.inl ⟨expectedSepMsg, h'.symm⟩

lemma advance_past_error_origin {σ : Type}
    (oe : σ → List Char → Except Err (σ × List Char)) (s : σ)
    (input : List Char) (e : Err) :
    advance_past_comma_separated '[' ']' oe s input = Except.error e →
    (∃ m, e = Err.framing m) ∨ ∃ s' l', oe s' l' = Except.error e := by
  intro h
  unfold advance_past_comma_separated at h
  split at h
  · injection h with h'
    exact Or.inl ⟨expectedOpenMsg, h'.symm⟩
  · rename_i c cs
    split at h
    · split at h
      · injection h with h'
        exact Or.inl ⟨unexpectedEndMsg, h'.symm⟩
      · rename_i d ds hsw
        split at h
        · cases h
        · exact advance_loop_error_origin ']' oe (d :: ds).length s
            (d :: ds) e h
    · injection h with h'
      exact Or.inl ⟨expectedOpenMsg, h'.symm⟩

lemma array_on_element_error_origin {α σ C : Type} (inner : Codec α)
    (ins : σ → C → α → Except Err (σ × C)) (sc : σ × C) (l : List Char)
    (e : Err) :
    array_on_element inner ins sc l = Except.error e →
    inner.dec l = Except.error e ∨ ∃ s c v, ins s c v = Except.error e := by
  intro h
  unfold array_on_element at h
  split at h
  · rename_i e' heq
    injection h with h'
    subst h'
    exact Or.inl heq
  · rename_i p v rest heq
    split at h
    · rename_i e' hins
      injection h with h'
      subst h'
      exact Or.inr ⟨sc.1, sc.2, v, hins⟩
    · cases h

lemma array_decode_error_origin {α σ C : Type} (inner : Codec α) (init : σ)
    (empty : C) (ins : σ → C → α → Except Err (σ × C))
    (val : σ → C → Except Err Unit) (input : List Char) (e : Err) :
    array_decode inner init empty ins val input = Except.error e →
    (∃ m, e = Err.framing m)
      ∨ (∃ l', inner.dec l' = Except.error e)
      ∨ (∃ s c v, ins s c v = Except.error e)
      ∨ (∃ s c, val s c = Except.error e) := by
  intro h
  unfold array_decode at h
  split at h
  · rename_i e' hap
    injection h with h'
    subst h'
    rcases advance_past_error_origin (array_on_element inner ins)
        (init, empty) input e' hap with hfr | ⟨s', l', hoe⟩
    · exact Or.inl hfr
    · rcases array_on_element_error_origin inner ins s' l' e' hoe with
        hdec | hins
      · exact Or.inr (Or.inl ⟨l', hdec⟩)
      · exact Or.inr (Or.inr (Or.inl hins))
  · rename_i p sc rest hap
    split at h
    · rename_i e' hval
      injection h with h'
      subst h'
      exact Or.inr (Or.inr (Or.inr ⟨sc.1, sc.2, hval⟩))
    · cases h

lemma foldl_snd_seq {α : Type} :
    ∀ (l : List α) (p : Int × List α),
      (l.foldl
        (fun (q : Int × List α) x =>
          (SequenceInserter.init_state, q.2 ++ [x])) p).2
        = p.2 ++ l := by
  intro l
  induction l with
  | nil => intro p; simp
  | cons a l ih =>
    intro p
    simp only [List.foldl_cons, ih]
    simp

lemma foldl_snd_assoc {α : Type} [DecidableEq α] :
    ∀ (l : List α) (p : Int × List α),
      (l.foldl
        (fun (q : Int × List α) x =>
          (AssociativeInserter.init_state, assoc_insert q.2 x)) p).2
        = l.foldl assoc_insert p.2 := by
  intro l
  induction l with
  | nil => intro p; simp
  | cons a l ih =>
    intro p
    simp only [List.foldl_cons, ih]

lemma mem_assoc_insert {α : Type} [DecidableEq α] (acc : List α) (a x : α) :
    x ∈ assoc_insert acc a ↔ x ∈ acc ∨ x = a := by
  unfold assoc_insert
  split_ifs with h
  · constructor
    · exact fun hx => Or.inl hx
    · rintro (hx | rfl)
      · exact hx
      · exact h
  · simp

lemma mem_foldl_assoc_insert {α : Type} [DecidableEq α] :
    ∀ (l acc : List α) (x : α),
      x ∈ l.foldl assoc_insert acc ↔ x ∈ acc ∨ x ∈ l := by
  intro l
  induction l with
  | nil => intro acc x; simp
  | cons a l ih =>
    intro acc x
    simp only [List.foldl_cons, ih, mem_assoc_insert, List.mem_cons]
    tauto

lemma take_succ_set {α : Type} :
    ∀ (c : List α) (pos : Nat) (a : α), pos < c.length →
      (c.set pos a).take (pos + 1) = c.take pos ++ [a] := by
  intro c
  induction c with
  | nil => intro pos a h; simp at h
  | cons x xs ih =>
    intro pos a h
    cases pos with
    | zero => simp
    | succ pos =>
      rw [List.set_cons_succ, List.take_succ_cons, List.take_succ_cons,
        ih pos a (by simpa using h)]
      simp

lemma set_from_full {α : Type} :
    ∀ (l c : List α) (pos : Nat), pos + l.length = c.length →
      set_from c pos l = c.take pos ++ l := by
  intro l
  induction l with
  | nil =>
    intro c pos h
    simp only [set_from]
    simp at h
    subst h
    simp [List.take_length]
  | cons a l ih =>
    intro c pos h
    simp only [set_from]
    rw [ih (c.set pos a) (pos + 1) (by simp [List.length_set]; simp at h; omega)]
    rw [take_succ_set c pos a (by simp at h; omega)]
    simp

lemma set_from_length {α : Type} :
    ∀ (l c : List α) (pos : Nat),
      (set_from c pos l).length = c.length := by
  intro l
  induction l with
  | nil => intro c pos; simp [set_from]
  | cons a l ih =>
    intro c pos
    simp only [set_from, ih, List.length_set]

lemma set_from_replicate {α : Type} [Inhabited α] (n : Nat) (l : List α)
    (h : l.length = n) :
    set_from (List.replicate n (default : α)) 0 l = l := by
  rw [set_from_full l (List.replicate n default) 0 (by simp [h])]
  simp

lemma trace_of_length {α : Type} (enc : α → List Char) :
    ∀ l : List α, (trace_of enc l).length = l.length := by
  intro l
  induction l with
  | nil => simp [trace_of]
  | cons a l ih => simp [trace_of, ih]

lemma midE_length_lt {α : Type} {inner : Codec α} (hh : GoodHead inner)
    (a : α) (l : List α) :
    (midE inner.enc l).length < (midE inner.enc (a :: l)).length := by
  obtain ⟨c, cs, henc, _, _⟩ := hh a
  cases l with
  | nil => simp [midE_single, midE, henc]
  | cons b l' =>
    rw [midE_cons_cons, henc]
    simp
    omega

lemma trace_of_chain {α : Type} {inner : Codec α} (hh : GoodHead inner) :
    ∀ l : List α,
      List.Chain' (fun x y => y < x) (trace_of inner.enc l) := by
  intro l
  induction l with
  | nil => simp [trace_of]
  | cons a l ih =>
    cases l with
    | nil => simp [trace_of]
    | cons b l' =>
      rw [show trace_of inner.enc (a :: b :: l')
          = (midE inner.enc (a :: b :: l')).length
            :: trace_of inner.enc (b :: l') from rfl]
      rw [show trace_of inner.enc (b :: l')
          = (midE inner.enc (b :: l')).length :: trace_of inner.enc l'
          from rfl] at ih ⊢
      exact List.Chain'.cons (midE_length_lt hh a (b :: l')) ih

lemma digit_roundtrip : RoundTrips digitCodec := by
  intro a rest _
  fin_cases a <;> rfl

lemma digit_goodhead : GoodHead digitCodec := by
  intro a
  fin_cases a <;> exact ⟨_, _, rfl, by decide, by decide⟩

lemma digit_goodlast : GoodLast digitCodec := by
  intro a
  fin_cases a <;> exact ⟨by decide, by decide⟩

lemma elide_roundtrip : RoundTrips elideCodec := by
  intro a rest _
  fin_cases a <;> rfl

lemma elide_goodlast : GoodLast elideCodec := by
  intro a
  fin_cases a <;> exact ⟨by decide, by decide⟩

lemma decode_vector_tr_midE {α : Type} (inner : Codec α)
    (h1 : RoundTrips inner) (hh : GoodHead inner) (l : List α) :
    decode_vector_tr inner ('[' :: midE inner.enc l)
      = Except.ok ((l, trace_of inner.enc l), []) := by
  cases l with
  | nil => rfl
  | cons a l' =>
    obtain ⟨d, ds, hmid, hdws, hdcl⟩ := midE_head hh a l'
    unfold decode_vector_tr array_decode_tr
    rw [hmid, advance_past_entry _ _ d ds hdws hdcl, ← hmid]
    rw [advance_loop_midE_total
      (fun s c x => (SequenceInserter.init_state, c ++ [x]))
      (fun s c x => rfl :
        ∀ (s : Int) (c : List α) (x : α),
          SequenceInserter.insert s c x
            = Except.ok (SequenceInserter.init_state, c ++ [x]))
      h1 hh l' a (midE inner.enc (a :: l')).length
      (SequenceInserter.init_state, []) [] le_rfl]
    simp only [SequenceInserter.validate]
    have hsnd := foldl_snd_seq (a :: l')
      (SequenceInserter.init_state, ([] : List α))
    simp at hsnd ⊢
    exact hsnd

lemma decode_vector_midE {α : Type} (inner : Codec α)
    (h1 : RoundTrips inner) (hh : GoodHead inner) (l : List α) :
    decode_vector inner ('[' :: midE inner.enc l)
      = Except.ok (l, []) := by
  unfold decode_vector
  rw [array_decode_erase]
  have h := decode_vector_tr_midE inner h1 hh l
  unfold decode_vector_tr at h
  rw [h]
  simp [Except.map]

lemma decode_set_tr_midE {α : Type} [DecidableEq α] (inner : Codec α)
    (h1 : RoundTrips inner) (hh : GoodHead inner) (l : List α) :
    decode_set_tr inner ('[' :: midE inner.enc l)
      = Except.ok ((l.foldl assoc_insert [], trace_of inner.enc l), []) := by
  cases l with
  | nil => rfl
  | cons a l' =>
    obtain ⟨d, ds, hmid, hdws, hdcl⟩ := midE_head hh a l'
    unfold decode_set_tr array_decode_tr
    rw [hmid, advance_past_entry _ _ d ds hdws hdcl, ← hmid]
    rw [advance_loop_midE_total
      (fun s c x => (AssociativeInserter.init_state, assoc_insert c x))
      (fun s c x => rfl :
        ∀ (s : Int) (c : List α) (x : α),
          AssociativeInserter.insert s c x
            = Except.ok (AssociativeInserter.init_state, assoc_insert c x))
      h1 hh l' a (midE inner.enc (a :: l')).length
      (AssociativeInserter.init_state, []) [] le_rfl]
    simp only [AssociativeInserter.validate]
    have hsnd := foldl_snd_assoc (a :: l')
      (AssociativeInserter.init_state, ([] : List α))
    simp at hsnd ⊢
    exact hsnd

lemma decode_set_midE {α : Type} [DecidableEq α] (inner : Codec α)
    (h1 : RoundTrips inner) (hh : GoodHead inner) (l : List α) :
    decode_set inner ('[' :: midE inner.enc l)
      = Except.ok (l.foldl assoc_insert [], []) := by
  unfold decode_set
  rw [array_decode_erase]
  have h := decode_set_tr_midE inner h1 hh l
  unfold decode_set_tr at h
  rw [h]
  simp [Except.map]

lemma decode_array_tr_midE {α : Type} [Inhabited α] (inner : Codec α)
    (h1 : RoundTrips inner) (hh : GoodHead inner) (n : Nat) (l : List α) :
    decode_array_tr n inner ('[' :: midE inner.enc l)
      = if n < l.length then Except.error (Err.arity tooManyMsg)
        else if l.length < n then Except.error (Err.arity tooFewMsg)
        else Except.ok ((set_from (List.replicate n (default : α)) 0 l,
            trace_of inner.enc l), []) := by
  cases l with
  | nil =>
    unfold decode_array_tr array_decode_tr
    rw [show midE inner.enc [] = [']'] from rfl,
      advance_past_empty_collection]
    simp only [FixedSizeSequenceInserter.validate,
      FixedSizeSequenceInserter.init_state]
    cases n with
    | zero => simp [set_from, trace_of]
    | succ n => simp [trace_of]
  | cons a l' =>
    obtain ⟨d, ds, hmid, hdws, hdcl⟩ := midE_head hh a l'
    unfold decode_array_tr array_decode_tr
    rw [hmid, advance_past_entry _ _ d ds hdws hdcl, ← hmid]
    rw [advance_loop_midE_fixed h1 hh l' a (midE inner.enc (a :: l')).length
      FixedSizeSequenceInserter.init_state (List.replicate n default) []
      le_rfl]
    simp only [FixedSizeSequenceInserter.init_state, List.length_replicate,
      set_from_length]
    by_cases hlt : n < (a :: l').length
    · rw [if_pos (by omega : n < 0 + (a :: l').length), if_pos hlt]
    · rw [if_neg (by omega : ¬n < 0 + (a :: l').length)]
      simp only [Nat.zero_add]
      simp only [FixedSizeSequenceInserter.validate, set_from_length,
        List.length_replicate]
      by_cases hne : (a :: l').length = n
      · rw [if_neg (by omega : ¬(a :: l').length ≠ n)]
        rw [if_neg hlt, if_neg (by omega)]
        simp
      · rw [if_pos (by omega : (a :: l').length ≠ n)]
        rw [if_neg hlt, if_pos (by omega)]

lemma decode_array_midE {α : Type} [Inhabited α] (inner : Codec α)
    (h1 : RoundTrips inner) (hh : GoodHead inner) (n : Nat) (l : List α) :
    decode_array n inner ('[' :: midE inner.enc l)
      = if n < l.length then Except.error (Err.arity tooManyMsg)
        else if l.length < n then Except.error (Err.arity tooFewMsg)
        else Except.ok (set_from (List.replicate n (default : α)) 0 l, []) := by
  unfold decode_array
  rw [array_decode_erase]
  have h := decode_array_tr_midE inner h1 hh n l
  unfold decode_array_tr at h
  rw [h]
  split_ifs <;> simp [Except.map]

lemma midE_last {α : Type} (enc : α → List Char) :
    ∀ l : List α, l ≠ [] →
      ∃ u x, midE enc l = u ++ enc x ++ [']'] := by
  intro l
  induction l with
  | nil => simp
  | cons a l ih =>
    intro _
    cases l with
    | nil => exact ⟨[], a, by simp [midE_single]⟩
    | cons b l' =>
      obtain ⟨u, x, hux⟩ := ih (by simp)
      exact ⟨enc a ++ ',' :: u, x, by simp [midE_cons_cons, hux]⟩

/-- C9: for the Sequential and Associative insertion strategies the threaded
strategy state is constant: insert always succeeds and always returns
init_state (0) regardless of the element or the container, so the state seen
by validate after any number of inserts equals init_state, and validate
never fails. -/
theorem c9_state_constant :
    (∀ (α : Type) (s : Int) (c : List α) (v : α),
      SequenceInserter.insert s c v
        = Except.ok (SequenceInserter.init_state, c ++ [v]))
    ∧ (∀ (α : Type) [instD : DecidableEq α] (s : Int) (c : List α) (v : α),
      AssociativeInserter.insert s c v
        = Except.ok (AssociativeInserter.init_state, assoc_insert c v))
    ∧ (∀ (α : Type) (s : Int) (c : List α),
      SequenceInserter.validate s c = Except.ok ())
    ∧ (∀ (α : Type) (s : Int) (c : List α),
      AssociativeInserter.validate s c = Except.ok ()) := by
  refine ⟨?_, ?_, ?_, ?_⟩ <;> intros <;> rfl

/-- C10: in the fixed-capacity strategy the write at container[pos] is
always in bounds: insert succeeds exactly when pos is strictly below the
container size, its success result writes position pos and advances the
state to pos + 1, and when pos has reached the size it fails with the
"too many elements" arity error before writing; consequently a successful
decode of a canonical n-element input performs the in-order writes
set_from at positions 0..n-1 and produces exactly the input elements. -/
theorem c10_fixed_write_in_bounds :
    (∀ (α : Type) (pos : Nat) (c : List α) (v : α) (out : Nat × List α),
      FixedSizeSequenceInserter.insert pos c v = Except.ok out →
      pos < c.length ∧ out = (pos + 1, c.set pos v))
    ∧ (∀ (α : Type) (pos : Nat) (c : List α) (v : α),
      c.length ≤ pos →
      FixedSizeSequenceInserter.insert pos c v
        = Except.error (Err.arity tooManyMsg))
    ∧ (∀ (α : Type) [instI : Inhabited α] (inner : Codec α),
      RoundTrips inner → GoodHead inner →
      ∀ (n : Nat) (l : List α), l.length = n →
        decode_array n inner ('[' :: midE inner.enc l)
            = Except.ok (set_from (List.replicate n (default : α)) 0 l, [])
          ∧ set_from (List.replicate n (default : α)) 0 l = l) := by
  refine ⟨?_, ?_, ?_⟩
  · intro α pos c v out h
    unfold FixedSizeSequenceInserter.insert at h
    split at h
    · cases h
    · rename_i hge
      injection h with h'
      exact ⟨by omega, h'.symm⟩
  · intro α pos c v h
    unfold FixedSizeSequenceInserter.insert
    rw [if_pos (by omega : pos ≥ c.length)]
  · intro α instI inner h1 hh n l hlen
    constructor
    · rw [decode_array_midE inner h1 hh n l,
        if_neg (by omega : ¬n < l.length),
        if_neg (by omega : ¬l.length < n)]
    · exact set_from_replicate n l hlen

/-- C10 witness: a concrete in-bounds insert and a concrete successful
two-element decode into a fixed-capacity container of size two. -/
theorem c10_witness :
    ((0 : Nat) < ([(0 : Fin 10), 0] : List (Fin 10)).length
      ∧ ((1 : Nat), ([(5 : Fin 10), 0] : List (Fin 10)))
          = (0 + 1, ([(0 : Fin 10), 0] : List (Fin 10)).set 0 5))
    ∧ decode_array 2 digitCodec ('[' :: midE digitCodec.enc [(3 : Fin 10), 4])
        = Except.ok
            (set_from (List.replicate 2 (default : Fin 10)) 0
              [(3 : Fin 10), 4], [])
    ∧ set_from (List.replicate 2 (default : Fin 10)) 0 [(3 : Fin 10), 4]
        = [(3 : Fin 10), 4] :=
  ⟨c10_fixed_write_in_bounds.1 (Fin 10) 0 [(0 : Fin 10), 0] 5
      (1, [(5 : Fin 10), 0]) rfl,
   (c10_fixed_write_in_bounds.2.2 (Fin 10) digitCodec digit_roundtrip
      digit_goodhead 2 [(3 : Fin 10), 4] rfl).1,
   (c10_fixed_write_in_bounds.2.2 (Fin 10) digitCodec digit_roundtrip
      digit_goodhead 2 [(3 : Fin 10), 4] rfl).2⟩

/-- C1 counterexample: decoding the input [] into a fixed-capacity container
of size 1 does not yield an empty container; it fails with the "too few
elements" arity error raised at final validation, so the claim fails for the
fixed-capacity container kind. -/
theorem c1_counterexample :
    decode_array 1 digitCodec [ '[', ']' ]
        = Except.error (Err.arity tooFewMsg)
      ∧ ¬∃ out, decode_array 1 digitCodec [ '[', ']' ] = Except.ok out := by
  constructor
  · rfl
  · rintro ⟨out, hout⟩
    rw [show decode_array 1 digitCodec [ '[', ']' ]
        = Except.error (Err.arity tooFewMsg) from rfl] at hout
    cases hout

/-- C1 (amended): decoding the input [] invokes the inner codec zero times
for every container kind (the framing algorithm returns before the
per-element callback ever runs, as the empty invocation traces show, for any
inner codec whatsoever); the ordered-growable and unordered-unique kinds
yield an empty container, and the fixed-capacity kind of size n yields the
(empty) size-zero container when n = 0 and otherwise fails with the
"too few elements" arity error. -/
theorem c1_empty_input_amended :
    ∀ (α : Type) [instI : Inhabited α] [instD : DecidableEq α]
      (inner : Codec α),
      decode_vector inner [ '[', ']' ] = Except.ok ([], [])
      ∧ decode_set inner [ '[', ']' ] = Except.ok ([], [])
      ∧ decode_array 0 inner [ '[', ']' ] = Except.ok ([], [])
      ∧ (∀ n : Nat, 0 < n →
          decode_array n inner [ '[', ']' ]
            = Except.error (Err.arity tooFewMsg))
      ∧ decode_vector_tr inner [ '[', ']' ] = Except.ok (([], []), [])
      ∧ decode_set_tr inner [ '[', ']' ] = Except.ok (([], []), [])
      ∧ (∀ n : Nat,
          advance_past_comma_separated '[' ']'
            (traced_on_element inner FixedSizeSequenceInserter.insert)
            ((FixedSizeSequenceInserter.init_state,
              List.replicate n (default : α)), []) [ '[', ']' ]
            = Except.ok (((FixedSizeSequenceInserter.init_state,
                List.replicate n (default : α)), []), [])) := by
  intro α instI instD inner
  refine ⟨rfl, rfl, rfl, ?_, rfl, rfl, fun n => rfl⟩
  intro n hn
  unfold decode_array array_decode
  rw [advance_past_empty_collection]
  simp only [FixedSizeSequenceInserter.validate,
    FixedSizeSequenceInserter.init_state, List.length_replicate]
  rw [if_pos (by omega : (0 : Nat) ≠ n)]

/-- C1 witness for the amended claim at a concrete codec and size. -/
theorem c1_amended_witness :
    decode_vector digitCodec [ '[', ']' ] = Except.ok ([], [])
    ∧ decode_vector_tr digitCodec [ '[', ']' ] = Except.ok (([], []), [])
    ∧ decode_array 1 digitCodec [ '[', ']' ]
        = Except.error (Err.arity tooFewMsg) :=
  ⟨(c1_empty_input_amended (Fin 10) digitCodec).1,
   (c1_empty_input_amended (Fin 10) digitCodec).2.2.2.2.1,
   (c1_empty_input_amended (Fin 10) digitCodec).2.2.2.1 1 (by decide)⟩

/-- C2: for every decode into a fixed-capacity container of size n with a
round-tripping inner codec: a canonical input with exactly n elements
succeeds and fills positions 0..n-1 in left-to-right input order; an input
with fewer than n elements fails at final validation with the "too few
elements" arity error; an input with more than n elements fails with the
"too many elements" arity error, and that failure is raised eagerly at the
offending insert — an input carrying n+1 comma-terminated elements fails
with "too many elements" no matter what garbage follows them. -/
theorem c2_fixed_capacity_arity (α : Type) [instI : Inhabited α]
    (inner : Codec α) (h1 : RoundTrips inner) (hh : GoodHead inner)
    (n : Nat) :
    (∀ l : List α, l.length = n →
      decode_array n inner ('[' :: midE inner.enc l) = Except.ok (l, []))
    ∧ (∀ l : List α, l.length < n →
      decode_array n inner ('[' :: midE inner.enc l)
        = Except.error (Err.arity tooFewMsg))
    ∧ (∀ l : List α, n < l.length →
      decode_array n inner ('[' :: midE inner.enc l)
        = Except.error (Err.arity tooManyMsg))
    ∧ (∀ (a : α) (l : List α) (g : List Char), (a :: l).length = n + 1 →
      decode_array n inner ('[' :: (bodyE inner.enc (a :: l) ++ g))
        = Except.error (Err.arity tooManyMsg)) := by
  refine ⟨?_, ?_, ?_, ?_⟩
  · intro l hlen
    rw [decode_array_midE inner h1 hh n l,
      if_neg (by omega : ¬n < l.length),
      if_neg (by omega : ¬l.length < n),
      set_from_replicate n l hlen]
  · intro l hlen
    rw [decode_array_midE inner h1 hh n l,
      if_neg (by omega : ¬n < l.length), if_pos hlen]
  · intro l hlen
    rw [decode_array_midE inner h1 hh n l, if_pos hlen]
  · intro a l g hlen
    obtain ⟨c, cs, henc, hws, hcl⟩ := hh a
    have hshape : bodyE inner.enc (a :: l) ++ g
        = c :: (cs ++ ',' :: (bodyE inner.enc l ++ g)) := by
      simp [bodyE_cons, henc]
    unfold decode_array array_decode
    rw [hshape, advance_past_entry _ _ c _ hws hcl, ← hshape]
    rw [advance_loop_bodyE_fixed_overflow h1 hh l a
      (bodyE inner.enc (a :: l) ++ g).length FixedSizeSequenceInserter.init_state
      (List.replicate n default) g
      (by simp [FixedSizeSequenceInserter.init_state]; simp at hlen; omega)
      le_rfl]

/-- C2 witness: concrete decodes into a fixed-capacity container of size 3
with the digit codec, on the inputs [1,2,3], [1,2] and [1,2,3,4]. -/
theorem c2_witness :
    ('[' :: midE digitCodec.enc [(1 : Fin 10), 2, 3])
        = [ '[', '1', ',', '2', ',', '3', ']' ]
    ∧ decode_array 3 digitCodec ('[' :: midE digitCodec.enc [(1 : Fin 10), 2, 3])
        = Except.ok ([(1 : Fin 10), 2, 3], [])
    ∧ decode_array 3 digitCodec ('[' :: midE digitCodec.enc [(1 : Fin 10), 2])
        = Except.error (Err.arity tooFewMsg)
    ∧ decode_array 3 digitCodec
        ('[' :: midE digitCodec.enc [(1 : Fin 10), 2, 3, 4])
        = Except.error (Err.arity tooManyMsg) :=
  ⟨by decide,
   (c2_fixed_capacity_arity (Fin 10) digitCodec digit_roundtrip
      digit_goodhead 3).1 [(1 : Fin 10), 2, 3] rfl,
   (c2_fixed_capacity_arity (Fin 10) digitCodec digit_roundtrip
      digit_goodhead 3).2.1 [(1 : Fin 10), 2] (by decide),
   (c2_fixed_capacity_arity (Fin 10) digitCodec digit_roundtrip
      digit_goodhead 3).2.2.1 [(1 : Fin 10), 2, 3, 4] (by decide)⟩

/-- C3: encode writes exactly the non-elided elements in the container's
iteration order — the output is the open bracket followed by the canonical
comma-separated form of the filtered element list — so each written element
is followed by at most one separator; an empty or fully-elided container
encodes to exactly the two characters open-close; and when element encodings
are nonempty and do not end in a separator, the output never contains a
separator immediately before the closing bracket. -/
theorem c3_encode_elision (α : Type) (inner : Codec α) (hl : GoodLast inner) :
    (∀ l : List α,
      array_encode inner l
        = '[' :: midE inner.enc (l.filter inner.should_encode))
    ∧ (∀ l : List α, l.filter inner.should_encode = [] →
      array_encode inner l = [ '[', ']' ])
    ∧ (∀ l : List α, ¬∃ b, array_encode inner l = b ++ [ ',', ']' ]) := by
  refine ⟨fun l => array_encode_eq inner l, ?_, ?_⟩
  · intro l hfl
    rw [array_encode_eq inner l, hfl]
    rfl
  · intro l hex
    obtain ⟨b, hb⟩ := hex
    rw [array_encode_eq inner l] at hb
    cases hfl : l.filter inner.should_encode with
    | nil =>
      rw [hfl, show midE inner.enc [] = [']'] from rfl] at hb
      cases b with
      | nil => simp at hb
      | cons y ys =>
        have hlen := congrArg List.length hb
        simp at hlen
    | cons a fl' =>
      obtain ⟨u, x, hux⟩ := midE_last inner.enc (a :: fl') (by simp)
      rw [hfl, hux] at hb
      have hb' : (('[' :: u) ++ inner.enc x) ++ [']'] = (b ++ [',']) ++ [']'] := by
        simpa [List.append_assoc] using hb
      have h2 : ('[' :: u) ++ inner.enc x = b ++ [','] :=
        List.append_cancel_right hb' 
      have h4 := congrArg List.getLast? h2
      rw [List.getLast?_concat,
        List.getLast?_append_of_ne_nil ('[' :: u) (hl x).1] at h4
      exact (hl x).2 h4

/-- C3 witness: with the digit codec eliding the digit 2, the three-element
container [1,2,3] encodes to exactly the five characters of [1,3] with no
stray separator, and a fully-elided container encodes to the empty form. -/
theorem c3_witness :
    array_encode elideCodec [(1 : Fin 10), 2, 3]
        = '[' :: midE elideCodec.enc
            ([(1 : Fin 10), 2, 3].filter elideCodec.should_encode)
    ∧ array_encode elideCodec [(1 : Fin 10), 2, 3]
        = [ '[', '1', ',', '3', ']' ]
    ∧ array_encode elideCodec [(2 : Fin 10), 2] = [ '[', ']' ]
    ∧ ¬∃ b, array_encode elideCodec [(1 : Fin 10), 2, 3] = b ++ [ ',', ']' ] :=
  ⟨(c3_encode_elision (Fin 10) elideCodec elide_goodlast).1 [(1 : Fin 10), 2, 3],
   by decide,
   (c3_encode_elision (Fin 10) elideCodec elide_goodlast).2.1
      [(2 : Fin 10), 2] (by decide),
   (c3_encode_elision (Fin 10) elideCodec elide_goodlast).2.2
      [(1 : Fin 10), 2, 3]⟩

/-- C4: for every ordered-growable container C, with an inner codec whose
decode inverts its encode and whose elision predicate never skips, decoding
the encoding of C succeeds and returns exactly C, in order, with the whole
input consumed. -/
theorem c4_roundtrip_ordered (α : Type) (inner : Codec α)
    (h1 : RoundTrips inner) (hh : GoodHead inner)
    (hsk : ∀ a : α, inner.should_encode a = true) :
    ∀ C : List α,
      decode_vector inner (array_encode inner C) = Except.ok (C, []) := by
  intro C
  rw [array_encode_eq inner C,
    List.filter_eq_self.mpr (fun a _ => hsk a)]
  exact decode_vector_midE inner h1 hh C

/-- C4 witness: the digit codec round-trips the concrete ordered container
[1,2,3]. -/
theorem c4_witness :
    decode_vector digitCodec (array_encode digitCodec [(1 : Fin 10), 2, 3])
      = Except.ok ([(1 : Fin 10), 2, 3], []) :=
  c4_roundtrip_ordered (Fin 10) digitCodec digit_roundtrip digit_goodhead
    (fun a => rfl) [(1 : Fin 10), 2, 3]

/-- C5: for every unordered-unique container C, with a round-tripping,
never-skipping inner codec, decoding the encoding of C succeeds and yields a
container set-equal to C; moreover decoding any canonical element sequence —
duplicates included — succeeds, the duplicates being silently absorbed by
the container's native insert, which never fails. -/
theorem c5_roundtrip_unordered (α : Type) [instD : DecidableEq α]
    (inner : Codec α) (h1 : RoundTrips inner) (hh : GoodHead inner)
    (hsk : ∀ a : α, inner.should_encode a = true) :
    (∀ C : List α, ∃ m,
      decode_set inner (array_encode inner C) = Except.ok (m, [])
      ∧ ∀ x, x ∈ m ↔ x ∈ C)
    ∧ (∀ l : List α,
      decode_set inner ('[' :: midE inner.enc l)
        = Except.ok (l.foldl assoc_insert [], []))
    ∧ (∀ (s : Int) (c : List α) (v : α),
      AssociativeInserter.insert s c v
        = Except.ok (AssociativeInserter.init_state, assoc_insert c v)) := by
  refine ⟨?_, ?_, fun s c v => rfl⟩
  · intro C
    refine ⟨C.foldl assoc_insert [], ?_, ?_⟩
    · rw [array_encode_eq inner C,
        List.filter_eq_self.mpr (fun a _ => hsk a)]
      exact decode_set_midE inner h1 hh C
    · intro x
      rw [mem_foldl_assoc_insert C [] x]
      simp
  · intro l
    exact decode_set_midE inner h1 hh l

/-- C5 witness: the digit codec round-trips the concrete unordered container
[1,2] up to set equality, and decoding the duplicate-carrying input [1,1,2]
succeeds with the duplicate silently absorbed. -/
theorem c5_witness :
    (∃ m, decode_set digitCodec (array_encode digitCodec [(1 : Fin 10), 2])
        = Except.ok (m, []) ∧ ∀ x, x ∈ m ↔ x ∈ [(1 : Fin 10), 2])
    ∧ decode_set digitCodec ('[' :: midE digitCodec.enc [(1 : Fin 10), 1, 2])
        = Except.ok ([(1 : Fin 10), 1, 2].foldl assoc_insert [], [])
    ∧ [(1 : Fin 10), 1, 2].foldl assoc_insert [] = [(1 : Fin 10), 2] :=
  ⟨(c5_roundtrip_unordered (Fin 10) digitCodec digit_roundtrip digit_goodhead
      (fun a => rfl)).1 [(1 : Fin 10), 2],
   (c5_roundtrip_unordered (Fin 10) digitCodec digit_roundtrip digit_goodhead
      (fun a => rfl)).2.1 [(1 : Fin 10), 1, 2],
   by decide⟩

lemma array_decode_missing_sep {α σ C : Type} (inner : Codec α) (init : σ)
    (empty : C) (ins : σ → C → α → Except Err (σ × C))
    (val : σ → C → Except Err Unit)
    (a : α) (rest : List Char) (c : Char) (junk : List Char)
    (e : Char) (es : List Char)
    (henc : inner.enc a = e :: es) (hws : is_ws e = false) (hcl : e ≠ ']')
    (hdec : inner.dec (inner.enc a ++ rest) = Except.ok (a, rest))
    (hins : ∃ r, ins init empty a = Except.ok r)
    (hsw : skip_ws rest = c :: junk) (hc1 : c ≠ ',') (hc2 : c ≠ ']') :
    array_decode inner init empty ins val ('[' :: (inner.enc a ++ rest))
      = Except.error (Err.framing expectedSepMsg) := by
  obtain ⟨r, hr⟩ := hins
  have hshape : inner.enc a ++ rest = e :: (es ++ rest) := by simp [henc]
  have hoe : array_on_element inner ins (init, empty) (inner.enc a ++ rest)
      = Except.ok (r, rest) := by
    simp only [array_on_element, hdec, hr]
  have hfl : (inner.enc a ++ rest).length = (es ++ rest).length + 1 := by
    simp [henc]
  unfold array_decode
  rw [hshape, advance_past_entry _ _ e _ hws hcl, ← hshape, hfl]
  simp only [advance_loop, hoe, hsw]
  rw [if_neg hc2, if_neg hc1]

/-- C6: a trailing comma before the close bracket and a missing separator
between two elements are framing errors for every container kind, and no
container is returned: generically, any nonempty comma-terminated element
sequence followed by the close bracket fails with the trailing-comma framing
error (ordered-growable and unordered-unique kinds), any element followed by
a significant character that is neither separator nor close marker fails
with the expected-separator framing error (all three kinds), and concretely
the digit-codec inputs [1,2,] and [1 2] fail with those framing errors for
all three container kinds. -/
theorem c6_framing_errors (α : Type) [instI : Inhabited α]
    [instD : DecidableEq α] (inner : Codec α)
    (h1 : RoundTrips inner) (hh : GoodHead inner) :
    (∀ (a : α) (l : List α),
      decode_vector inner ('[' :: (bodyE inner.enc (a :: l) ++ [']']))
        = Except.error (Err.framing trailingCommaMsg))
    ∧ (∀ (a : α) (l : List α),
      decode_set inner ('[' :: (bodyE inner.enc (a :: l) ++ [']']))
        = Except.error (Err.framing trailingCommaMsg))
    ∧ (∀ (a : α) (rest : List Char) (c : Char) (junk : List Char),
      inner.dec (inner.enc a ++ rest) = Except.ok (a, rest) →
      skip_ws rest = c :: junk → c ≠ ',' → c ≠ ']' →
      decode_vector inner ('[' :: (inner.enc a ++ rest))
          = Except.error (Err.framing expectedSepMsg)
        ∧ decode_set inner ('[' :: (inner.enc a ++ rest))
          = Except.error (Err.framing expectedSepMsg)
        ∧ ∀ n : Nat, 0 < n →
            decode_array n inner ('[' :: (inner.enc a ++ rest))
              = Except.error (Err.framing expectedSepMsg))
    ∧ decode_vector digitCodec [ '[', '1', ',', '2', ',', ']' ]
        = Except.error (Err.framing trailingCommaMsg)
    ∧ decode_set digitCodec [ '[', '1', ',', '2', ',', ']' ]
        = Except.error (Err.framing trailingCommaMsg)
    ∧ decode_array 2 digitCodec [ '[', '1', ',', '2', ',', ']' ]
        = Except.error (Err.framing trailingCommaMsg)
    ∧ decode_vector digitCodec [ '[', '1', ' ', '2', ']' ]
        = Except.error (Err.framing expectedSepMsg)
    ∧ decode_set digitCodec [ '[', '1', ' ', '2', ']' ]
        = Except.error (Err.framing expectedSepMsg)
    ∧ decode_array 2 digitCodec [ '[', '1', ' ', '2', ']' ]
        = Except.error (Err.framing expectedSepMsg) := by
  refine ⟨?_, ?_, ?_, rfl, rfl, rfl, rfl, rfl, rfl⟩
  · intro a l
    obtain ⟨c0, cs0, henc, hws, hcl⟩ := hh a
    have hshape : bodyE inner.enc (a :: l) ++ [']']
        = c0 :: (cs0 ++ ',' :: (bodyE inner.enc l ++ [']'])) := by
      simp [bodyE_cons, henc]
    unfold decode_vector array_decode
    rw [hshape, advance_past_entry _ _ c0 _ hws hcl, ← hshape]
    rw [advance_loop_bodyE_close_total
      (fun s c x => (SequenceInserter.init_state, c ++ [x]))
      (fun s c x => rfl :
        ∀ (s : Int) (c : List α) (x : α),
          SequenceInserter.insert s c x
            = Except.ok (SequenceInserter.init_state, c ++ [x]))
      h1 hh l a (bodyE inner.enc (a :: l) ++ [']']).length
      (SequenceInserter.init_state, []) le_rfl]
  · intro a l
    obtain ⟨c0, cs0, henc, hws, hcl⟩ := hh a
    have hshape : bodyE inner.enc (a :: l) ++ [']']
        = c0 :: (cs0 ++ ',' :: (bodyE inner.enc l ++ [']'])) := by
      simp [bodyE_cons, henc]
    unfold decode_set array_decode
    rw [hshape, advance_past_entry _ _ c0 _ hws hcl, ← hshape]
    rw [advance_loop_bodyE_close_total
      (fun s c x => (AssociativeInserter.init_state, assoc_insert c x))
      (fun s c x => rfl :
        ∀ (s : Int) (c : List α) (x : α),
          AssociativeInserter.insert s c x
            = Except.ok (AssociativeInserter.init_state, assoc_insert c x))
      h1 hh l a (bodyE inner.enc (a :: l) ++ [']']).length
      (AssociativeInserter.init_state, []) le_rfl]
  · intro a rest c junk hdec hsw hc1 hc2
    obtain ⟨e, es, henc, hws, hcl⟩ := hh a
    refine ⟨?_, ?_, ?_⟩
    · exact array_decode_missing_sep inner _ _ _ _ a rest c junk e es
        henc hws hcl hdec ⟨_, rfl⟩ hsw hc1 hc2
    · exact array_decode_missing_sep inner _ _ _ _ a rest c junk e es
        henc hws hcl hdec ⟨_, rfl⟩ hsw hc1 hc2
    · intro n hn
      refine array_decode_missing_sep inner _ _ _ _ a rest c junk e es
        henc hws hcl hdec ⟨(1, (List.replicate n default).set 0 a), ?_⟩
        hsw hc1 hc2
      unfold FixedSizeSequenceInserter.insert
      rw [if_neg (by simp [FixedSizeSequenceInserter.init_state]; omega)]
      rfl

/-- C6 witness: the generic trailing-comma and missing-separator parts
applied to the digit codec at concrete inputs. -/
theorem c6_witness :
    decode_vector digitCodec
        ('[' :: (bodyE digitCodec.enc [(1 : Fin 10), 2] ++ [']']))
        = Except.error (Err.framing trailingCommaMsg)
    ∧ ('[' :: (bodyE digitCodec.enc [(1 : Fin 10), 2] ++ [']']))
        = [ '[', '1', ',', '2', ',', ']' ]
    ∧ decode_vector digitCodec
        ('[' :: (digitCodec.enc (1 : Fin 10) ++ [ ' ', '2', ']' ]))
        = Except.error (Err.framing expectedSepMsg) :=
  ⟨(c6_framing_errors (Fin 10) digitCodec digit_roundtrip digit_goodhead).1
      (1 : Fin 10) [2],
   by decide,
   ((c6_framing_errors (Fin 10) digitCodec digit_roundtrip
        digit_goodhead).2.2.1 (1 : Fin 10) [ ' ', '2', ']' ] '2' [ ']' ]
      rfl rfl (by decide) (by decide)).1⟩

/-- C7: on every canonical input — the open bracket followed by the
comma-separated encodings of any element list — decode succeeds for every
container kind (the fixed-capacity kind at matching arity) and the Inner
Codec's decode is invoked exactly once per syntactic element position: the
instrumented decoders, which record the remaining-input length at each
inner-codec invocation and provably project to the real decoders on every
input, return exactly one trace entry per element, in strictly decreasing
remaining-input order, which is left-to-right input order. -/
theorem c7_inner_once_per_element (α : Type) [instI : Inhabited α]
    [instD : DecidableEq α] (inner : Codec α)
    (h1 : RoundTrips inner) (hh : GoodHead inner) :
    (∀ l : List α,
      decode_vector_tr inner ('[' :: midE inner.enc l)
        = Except.ok ((l, trace_of inner.enc l), []))
    ∧ (∀ l : List α,
      decode_set_tr inner ('[' :: midE inner.enc l)
        = Except.ok ((l.foldl assoc_insert [], trace_of inner.enc l), []))
    ∧ (∀ (n : Nat) (l : List α), l.length = n →
      decode_array_tr n inner ('[' :: midE inner.enc l)
        = Except.ok ((set_from (List.replicate n (default : α)) 0 l,
            trace_of inner.enc l), []))
    ∧ (∀ l : List α, (trace_of inner.enc l).length = l.length)
    ∧ (∀ l : List α, List.Chain' (fun x y => y < x) (trace_of inner.enc l))
    ∧ (∀ input : List Char,
      decode_vector inner input
        = Except.map (fun p => (p.1.1, p.2)) (decode_vector_tr inner input))
    ∧ (∀ input : List Char,
      decode_set inner input
        = Except.map (fun p => (p.1.1, p.2)) (decode_set_tr inner input))
    ∧ (∀ (n : Nat) (input : List Char),
      decode_array n inner input
        = Except.map (fun p => (p.1.1, p.2))
            (decode_array_tr n inner input)) := by
  refine ⟨decode_vector_tr_midE inner h1 hh, decode_set_tr_midE inner h1 hh,
    ?_, trace_of_length inner.enc, trace_of_chain hh, ?_, ?_, ?_⟩
  · intro n l hlen
    rw [decode_array_tr_midE inner h1 hh n l,
      if_neg (by omega : ¬n < l.length),
      if_neg (by omega : ¬l.length < n)]
  · intro input
    unfold decode_vector decode_vector_tr
    exact array_decode_erase inner SequenceInserter.init_state []
      SequenceInserter.insert SequenceInserter.validate input
  · intro input
    unfold decode_set decode_set_tr
    exact array_decode_erase inner AssociativeInserter.init_state []
      AssociativeInserter.insert AssociativeInserter.validate input
  · intro n input
    unfold decode_array decode_array_tr
    exact array_decode_erase inner FixedSizeSequenceInserter.init_state
      (List.replicate n default) FixedSizeSequenceInserter.insert
      FixedSizeSequenceInserter.validate input

/-- C7 witness: decoding the concrete input [1,2,3] with the digit codec
produces one inner-codec invocation per element, at remaining-input lengths
6, 4, 2 — strictly left to right. -/
theorem c7_witness :
    decode_vector_tr digitCodec ('[' :: midE digitCodec.enc [(1 : Fin 10), 2, 3])
        = Except.ok (([(1 : Fin 10), 2, 3],
            trace_of digitCodec.enc [(1 : Fin 10), 2, 3]), [])
    ∧ trace_of digitCodec.enc [(1 : Fin 10), 2, 3] = [6, 4, 2] :=
  ⟨(c7_inner_once_per_element (Fin 10) digitCodec digit_roundtrip
      digit_goodhead).1 [(1 : Fin 10), 2, 3],
   by decide⟩

/-- C8: every decode failure unwinds the whole decode call — the result is
an error and no container is returned — and the error is classified: for the
ordered-growable and unordered-unique kinds it is either a framing error or
exactly an error value returned by the inner codec (propagated unchanged,
not wrapped); for the fixed-capacity kind additionally one of the two arity
errors.  There is no retry and no skip-and-continue. -/
theorem c8_error_propagation (α : Type) [instI : Inhabited α]
    [instD : DecidableEq α] (inner : Codec α) :
    (∀ (input : List Char) (e : Err),
      decode_vector inner input = Except.error e →
      (∃ m, e = Err.framing m) ∨ ∃ l', inner.dec l' = Except.error e)
    ∧ (∀ (input : List Char) (e : Err),
      decode_set inner input = Except.error e →
      (∃ m, e = Err.framing m) ∨ ∃ l', inner.dec l' = Except.error e)
    ∧ (∀ (n : Nat) (input : List Char) (e : Err),
      decode_array n inner input = Except.error e →
      (∃ m, e = Err.framing m) ∨ e = Err.arity tooManyMsg
        ∨ e = Err.arity tooFewMsg
        ∨ ∃ l', inner.dec l' = Except.error e) := by
  refine ⟨?_, ?_, ?_⟩
  · intro input e h
    unfold decode_vector at h
    rcases array_decode_error_origin inner _ _ _ _ input e h with
      hfr | ⟨l', hd⟩ | ⟨s, c, v, hi⟩ | ⟨s, c, hv⟩
    · exact Or.inl hfr
    · exact Or.inr ⟨l', hd⟩
    · exact absurd hi (by simp [SequenceInserter.insert])
    · exact absurd hv (by simp [SequenceInserter.validate])
  · intro input e h
    unfold decode_set at h
    rcases array_decode_error_origin inner _ _ _ _ input e h with
      hfr | ⟨l', hd⟩ | ⟨s, c, v, hi⟩ | ⟨s, c, hv⟩
    · exact Or.inl hfr
    · exact Or.inr ⟨l', hd⟩
    · exact absurd hi (by simp [AssociativeInserter.insert])
    · exact absurd hv (by simp [AssociativeInserter.validate])
  · intro n input e h
    unfold decode_array at h
    rcases array_decode_error_origin inner _ _ _ _ input e h with
      hfr | ⟨l', hd⟩ | ⟨s, c, v, hi⟩ | ⟨s, c, hv⟩
    · exact Or.inl hfr
    · exact Or.inr (Or.inr (Or.inr ⟨l', hd⟩))
    · unfold FixedSizeSequenceInserter.insert at hi
      split at hi
      · injection hi with hi'
        exact Or.inr (Or.inl hi'.symm)
      · cases hi
    · unfold FixedSizeSequenceInserter.validate at hv
      split at hv
      · injection hv with hv'
        exact Or.inr (Or.inr (Or.inl hv'.symm))
      · cases hv

/-- C8 witness: an inner-codec failure on the concrete input [x] is
propagated unchanged as the whole decode's error. -/
theorem c8_witness :
    decode_vector digitCodec [ '[', 'x', ']' ]
        = Except.error (Err.elem expectedDigitMsg)
    ∧ ((∃ m, Err.elem expectedDigitMsg = Err.framing m)
        ∨ ∃ l', digitCodec.dec l' = Except.error (Err.elem expectedDigitMsg)) :=
  ⟨rfl, (c8_error_propagation (Fin 10) digitCodec).1 [ '[', 'x', ']' ]
      (Err.elem expectedDigitMsg) rfl⟩
